import Mathlib

/-!
Verification of the symbolic transpilation core of strive-code-ai.

Shallow embedding of `app/core/transpiler.py`, `app/core/optimizer.py` and
`app/core/reconstructor.py`. Text is modelled as `List Char`; Python's
`re.sub` is modelled by an executable backtracking matcher specialised to the
exact pattern shapes occurring in the rule tables (literals, `\b`, the
capture groups `(\w+)` and `(.*)`), with Python's leftmost scan, greedy
quantifiers and group substitution. Filesystem and git collaborators of the
reconstruction pipeline are passed in as explicit values, following the
collaborator contracts (`clone_repo -> local path | None`,
`read_file -> content | "" on failure`, `commit_and_push -> url | None`).
-/

set_option maxHeartbeats 4000000

/-! ## Character classes (ASCII fragment of Python's `\w`, `\s`, `str.lower`) -/

def isWordChar (c : Char) : Bool :=
  (('a' ≤ c && c ≤ 'z') || ('A' ≤ c && c ≤ 'Z') || ('0' ≤ c && c ≤ '9') || c = '_')

def isAlphaUnder (c : Char) : Bool :=
  (('a' ≤ c && c ≤ 'z') || ('A' ≤ c && c ≤ 'Z') || c = '_')

-- `.` in a pattern without re.DOTALL: any character except a newline
def isDotChar (c : Char) : Bool := c ≠ '\n'

-- ASCII whitespace recognised by Python's `\s`, `str.strip`, `str.split()`
def isPyWs (c : Char) : Bool :=
  c = ' ' || c = '\t' || c = '\n' || c = '\r' || c = Char.ofNat 11 || c = Char.ofNat 12

def lbrace : Char := Char.ofNat 123
def rbrace : Char := Char.ofNat 125

def toLowerL (s : List Char) : List Char := s.map Char.toLower

/-! ## Lines: Python `code.split('\n')` and `'\n'.join(lines)` -/

def splitNl : List Char → List (List Char)
  | [] => [[]]
  | c :: rest =>
    if c = '\n' then [] :: splitNl rest
    else
      match splitNl rest with
      | [] => [[c]]
      | l :: ls => (c :: l) :: ls

def joinNl : List (List Char) → List Char
  | [] => []
  | [l] => l
  | l :: l2 :: ls => l ++ '\n' :: joinNl (l2 :: ls)

/-! ## The pattern matcher

The rule tables of `transpiler.py` only contain patterns that are a sequence
of: a literal piece, a word boundary `\b`, a greedy word group `(\w+)`, or a
greedy any group `(.*)`.  `matchSeq prev atoms s` attempts a match of the
sequence at the start of `s`, where `prev` is the character just before the
current position in the subject (for `\b`); it returns the captured groups in
order and the remaining subject.  Greediness with backtracking follows
Python: a group first takes the longest possible run and shrinks until the
rest of the pattern matches. -/

inductive Atom where
  | lit (s : List Char)
  | wb
  | grpWord
  | grpAny
deriving DecidableEq

def lastCharOr (prev : Option Char) (l : List Char) : Option Char :=
  match l.getLast? with
  | some c => some c
  | none => prev

def wordish (c : Option Char) : Bool :=
  match c with
  | some c => isWordChar c
  | none => false

def atBoundary (prev : Option Char) (next : Option Char) : Bool :=
  wordish prev != wordish next

-- try group lengths k, k-1, ..., mn, first success wins (greedy backtracking)
def tryK (next : Nat → Option (List (List Char) × List Char)) :
    Nat → Nat → Option (List (List Char) × List Char)
  | k, mn =>
    if k < mn then none
    else
      match next k with
      | some v => some v
      | none =>
        match k with
        | 0 => none
        | k' + 1 => tryK next k' mn

def matchSeq : Option Char → List Atom → List Char → Option (List (List Char) × List Char)
  | _, [], s => some ([], s)
  | prev, Atom.lit l :: as, s =>
      if s.take l.length = l then matchSeq (lastCharOr prev l) as (s.drop l.length) else none
  | prev, Atom.wb :: as, s =>
      if atBoundary prev s.head? then matchSeq prev as s else none
  | prev, Atom.grpWord :: as, s =>
      tryK (fun k => (matchSeq (lastCharOr prev (s.take k)) as (s.drop k)).map
        (fun p => (s.take k :: p.1, p.2))) ((s.takeWhile isWordChar).length) 1
  | prev, Atom.grpAny :: as, s =>
      tryK (fun k => (matchSeq (lastCharOr prev (s.take k)) as (s.drop k)).map
        (fun p => (s.take k :: p.1, p.2))) ((s.takeWhile isDotChar).length) 0

/-- Replacement template: literal pieces and group references `\1`, `\2`. -/
inductive ReplItem where
  | str (s : List Char)
  | ref (n : Nat)
deriving DecidableEq

def applyRepl (repl : List ReplItem) (gs : List (List Char)) : List Char :=
  match repl with
  | [] => []
  | ReplItem.str s :: r => s ++ applyRepl r gs
  | ReplItem.ref n :: r => gs.getD (n - 1) [] ++ applyRepl r gs

def prevAfter (s r : List Char) (prev : Option Char) : Option Char :=
  lastCharOr prev (s.take (s.length - r.length))

/-- `re.sub` scan: at each position try a match; on a match emit the
substituted replacement and continue after the match, otherwise advance one
character.  All patterns in the rule tables only produce non-empty matches,
so the guard `r.length < s.length` always holds at a match; the fuel
(initially the subject length) makes the recursion structural. -/
def scanSub (pat : List Atom) (repl : List ReplItem) :
    Nat → Option Char → List Char → List Char
  | 0, _, s => s
  | _ + 1, _, [] => []
  | fuel + 1, prev, c :: rest =>
    match matchSeq prev pat (c :: rest) with
    | some (gs, r) =>
      if r.length < (c :: rest).length then
        applyRepl repl gs ++ scanSub pat repl fuel (prevAfter (c :: rest) r prev) r
      else c :: scanSub pat repl fuel (some c) rest
    | none => c :: scanSub pat repl fuel (some c) rest

def subAll (pat : List Atom) (repl : List ReplItem) (s : List Char) : List Char :=
  scanSub pat repl s.length none s

/-- Whether the pattern matches anywhere in `s` scanning from a position with
preceding character `prev` (the positions tried by `re.sub`). -/
def hasMatchFrom (pat : List Atom) : Option Char → List Char → Bool
  | prev, [] => (matchSeq prev pat []).isSome
  | prev, c :: rest => (matchSeq prev pat (c :: rest)).isSome || hasMatchFrom pat (some c) rest

def hasMatch (pat : List Atom) (s : List Char) : Bool := hasMatchFrom pat none s

/-! ## The rule tables (`TRANSPILE_RULES` in `transpiler.py`, in source order) -/

def rulesPyJs : List (List Atom × List ReplItem) :=
  [ ([Atom.wb, Atom.lit ("print(".data), Atom.grpAny, Atom.lit (")".data)],
     [ReplItem.str ("console.log(".data), ReplItem.ref 1, ReplItem.str (")".data)]),
    ([Atom.lit ("def ".data), Atom.grpWord, Atom.lit ("(".data), Atom.grpAny,
      Atom.lit ("):".data)],
     [ReplItem.str ("function ".data), ReplItem.ref 1, ReplItem.str ("(".data), ReplItem.ref 2,
      ReplItem.str (") ".data ++ [lbrace])]),
    ([Atom.wb, Atom.lit ("True".data), Atom.wb], [ReplItem.str ("true".data)]),
    ([Atom.wb, Atom.lit ("False".data), Atom.wb], [ReplItem.str ("false".data)]),
    ([Atom.wb, Atom.lit ("None".data), Atom.wb], [ReplItem.str ("null".data)]),
    ([Atom.grpWord, Atom.lit (" = ".data), Atom.grpAny],
     [ReplItem.str ("let ".data), ReplItem.ref 1, ReplItem.str (" = ".data), ReplItem.ref 2,
      ReplItem.str (";".data)]),
    ([Atom.lit ("if ".data), Atom.grpAny, Atom.lit (":".data)],
     [ReplItem.str ("if (".data), ReplItem.ref 1, ReplItem.str (") ".data ++ [lbrace])]),
    ([Atom.lit ("elif ".data), Atom.grpAny, Atom.lit (":".data)],
     [ReplItem.str ([rbrace] ++ " else if (".data), ReplItem.ref 1,
      ReplItem.str (") ".data ++ [lbrace])]),
    ([Atom.lit ("else:".data)],
     [ReplItem.str ([rbrace] ++ " else ".data ++ [lbrace])]) ]

def rulesJsPy : List (List Atom × List ReplItem) :=
  [ ([Atom.lit ("console.log(".data), Atom.grpAny, Atom.lit (")".data)],
     [ReplItem.str ("print(".data), ReplItem.ref 1, ReplItem.str (")".data)]),
    ([Atom.lit ("function ".data), Atom.grpWord, Atom.lit ("(".data), Atom.grpAny,
      Atom.lit (") ".data ++ [lbrace])],
     [ReplItem.str ("def ".data), ReplItem.ref 1, ReplItem.str ("(".data), ReplItem.ref 2,
      ReplItem.str ("):".data)]),
    ([Atom.wb, Atom.lit ("true".data), Atom.wb], [ReplItem.str ("True".data)]),
    ([Atom.wb, Atom.lit ("false".data), Atom.wb], [ReplItem.str ("False".data)]),
    ([Atom.wb, Atom.lit ("null".data), Atom.wb], [ReplItem.str ("None".data)]),
    ([Atom.lit ("let ".data), Atom.grpWord, Atom.lit (" = ".data), Atom.grpAny,
      Atom.lit (";".data)],
     [ReplItem.ref 1, ReplItem.str (" = ".data), ReplItem.ref 2]),
    ([Atom.lit ("if (".data), Atom.grpAny, Atom.lit (") ".data ++ [lbrace])],
     [ReplItem.str ("if ".data), ReplItem.ref 1, ReplItem.str (":".data)]),
    ([Atom.lit ([rbrace] ++ " else if (".data), Atom.grpAny, Atom.lit (") ".data ++ [lbrace])],
     [ReplItem.str ("elif ".data), ReplItem.ref 1, ReplItem.str (":".data)]),
    ([Atom.lit ([rbrace] ++ " else ".data ++ [lbrace])], [ReplItem.str ("else:".data)]) ]

def TRANSPILE_RULES (key : List Char × List Char) :
    Option (List (List Atom × List ReplItem)) :=
  if key = ("python".data, "javascript".data) then some rulesPyJs
  else if key = ("javascript".data, "python".data) then some rulesJsPy
  else none

def INDENT_MAP (key : List Char × List Char) : List Char × List Char :=
  if key = ("python".data, "javascript".data) then ("    ".data, "  ".data)
  else if key = ("javascript".data, "python".data) then ("  ".data, "    ".data)
  else ([], [])

def applyRules (rules : List (List Atom × List ReplItem)) (code : List Char) : List Char :=
  rules.foldl (fun acc pr => subAll pr.1 pr.2 acc) code

/-! ## Indentation remapping and block closing (`transpiler.py` lines 53-67) -/

def fixLine (srcU dstU : List Char) (line : List Char) : List Char :=
  let stripped := line.dropWhile isPyWs
  let cnt := line.length - stripped.length
  (List.replicate (cnt / srcU.length) dstU).flatten ++ stripped

def fix_indentation (srcU dstU : List Char) (code : List Char) : List Char :=
  joinNl ((splitNl code).map (fixLine srcU dstU))

/-- `re.sub(r'(\n)(?![\s}])', r'\1}\n', new_code)`: after every newline whose
next character is absent or neither whitespace nor a closing brace, insert a
closing-brace line. -/
def close_blocks : List Char → List Char
  | [] => []
  | c :: rest =>
    if c = '\n' then
      match rest with
      | [] => '\n' :: rbrace :: '\n' :: close_blocks rest
      | d :: _ =>
        if isPyWs d || d = rbrace then '\n' :: close_blocks rest
        else '\n' :: rbrace :: '\n' :: close_blocks rest
    else c :: close_blocks rest

/-! ## `transpile` (`transpiler.py` lines 37-74) -/

structure TranspileTask where
  fromLang : List Char
  toLang : List Char
  code : List Char
deriving DecidableEq

structure TranspileOut where
  code : List Char
  fromLang : List Char
  toLang : List Char
  status : List Char
deriving DecidableEq

def unsupportedMsg (src dst : List Char) : List Char :=
  "Transpilation ".data ++ src ++ " → ".data ++ dst ++ " not supported".data

def transpile (task : TranspileTask) : Except (List Char) TranspileOut :=
  let src := toLowerL task.fromLang
  let dst := toLowerL task.toLang
  let key := (src, dst)
  match TRANSPILE_RULES key with
  | none => Except.error (unsupportedMsg src dst)
  | some rules =>
    let c1 := applyRules rules task.code
    let p := INDENT_MAP key
    let c2 := if p.1 ≠ [] ∧ p.2 ≠ [] then fix_indentation p.1 p.2 c1 else c1
    let c3 := if src = "python".data ∧ dst = "javascript".data then close_blocks c2 else c2
    Except.ok { code := c3, fromLang := src, toLang := dst, status := "transpiled".data }

/-! ## The optimizer (`optimizer.py`)

`used_vars = set(re.findall(r'\b([a-zA-Z_]\w*)\b', code))`: the matches of
that pattern are exactly the maximal runs of word characters whose first
character is a letter or underscore, so `pyTokens` collects those runs. -/

def wordRunsAux : List Char → List Char → List (List Char)
  | cur, [] => if cur = [] then [] else [cur.reverse]
  | cur, c :: rest =>
    if isWordChar c then wordRunsAux (c :: cur) rest
    else if cur = [] then wordRunsAux [] rest
    else cur.reverse :: wordRunsAux [] rest

def wordRuns (s : List Char) : List (List Char) := wordRunsAux [] s

def pyTokens (s : List Char) : List (List Char) :=
  (wordRuns s).filter (fun t => match t.head? with | some c => isAlphaUnder c | none => false)

/-- Python `str.strip()` (ASCII whitespace). -/
def stripWs (l : List Char) : List Char :=
  ((l.dropWhile isPyWs).reverse.dropWhile isPyWs).reverse

/-- Python `str.split()` — split on whitespace runs, no empty fields. -/
def splitWsAux : List Char → List Char → List (List Char)
  | cur, [] => if cur = [] then [] else [cur.reverse]
  | cur, c :: rest =>
    if isPyWs c then
      if cur = [] then splitWsAux [] rest else cur.reverse :: splitWsAux [] rest
    else splitWsAux (c :: cur) rest

def splitWs (l : List Char) : List (List Char) := splitWsAux [] l

/-- `line.strip().startswith(("import ", "from "))` -/
def line_is_import (line : List Char) : Bool :=
  ("import ".data).isPrefixOf (stripWs line) || ("from ".data).isPrefixOf (stripWs line)

/-- `line.split()[1].split('.')[0]` (with `[]` when there is no second field,
which cannot happen for a line passing `line_is_import`). -/
def mod_of (line : List Char) : List Char :=
  ((splitWs line).getD 1 []).takeWhile (fun c => c ≠ '.')

/-- The whitelist `{"os", "sys", "json", "math"}`. -/
def WLmods : List (List Char) := [ "os".data, "sys".data, "json".data, "math".data ]

/-- `is_empty_block` returns `False  # Simplified`. -/
def is_empty_block (_line : List Char) (_lines : List (List Char)) : Bool := false

/-- The per-line loop of `optimize_python`, returning (cleaned lines,
improvement messages) in source order. -/
def opt_py_go (used_vars : List (List Char)) (all_lines : List (List Char)) :
    List (List Char) → List (List Char) × List (List Char)
  | [] => ([], [])
  | line :: rest =>
    let r := opt_py_go used_vars all_lines rest
    if line_is_import line then
      if mod_of line ∈ used_vars ∨ mod_of line ∈ WLmods then (line :: r.1, r.2)
      else (r.1, ("Removed unused import: ".data ++ stripWs line) :: r.2)
    else
      if stripWs line = "pass".data ∧ is_empty_block line all_lines = false then
        (r.1, ("Removed unnecessary pass".data) :: r.2)
      else (line :: r.1, r.2)

def optimize_python (code : List Char) : List Char × List (List Char) :=
  let lines := splitNl code
  let used_vars := pyTokens code
  let r := opt_py_go used_vars lines lines
  (joinNl r.1, r.2)

def varPat : List Atom := [Atom.lit ("var ".data)]
def varRepl : List ReplItem := [ReplItem.str ("let ".data)]

def optimize_js (code : List Char) : List Char × List (List Char) :=
  (subAll varPat varRepl code, [ "Replaced var with let".data ])

structure OptimizeResult where
  optimized_code : List Char
  original_code : List Char
  improvements : List (List Char)
  savings : Int
  language : List Char
deriving DecidableEq

def optimize (code language : List Char) : OptimizeResult :=
  let lang := toLowerL language
  let pr :=
    if lang = "python".data then optimize_python code
    else if lang = "javascript".data then optimize_js code
    else (code, [])
  { optimized_code := pr.1, original_code := code, improvements := pr.2,
    savings := (code.length : Int) - (pr.1.length : Int), language := lang }

/-! ## The reconstruction pipeline (`reconstructor.py`)

The git and filesystem collaborators are interface boundaries: the outcome of
`clone_repo` + `list_files` + `read_file` is passed in as
`Option (List SrcFile)` (`none` = clone failed; each file carries the content
`read_file` returned, `""` on an unreadable file), and the outcome of
`commit_and_push` as `Option (List Char)` (`none` = push failed). -/

structure SrcFile where
  path : List Char
  content : List Char
deriving DecidableEq

structure ReconOut where
  original : List Char
  new_repo : Option (List Char)
  language : List Char
  files_transpiled : Nat
  modifications : List (List Char)
  status : List Char
deriving DecidableEq

def code_exts : List (List Char) :=
  [ ".py".data, ".js".data, ".ts".data, ".rs".data, ".go".data, ".c".data, ".cpp".data,
    ".java".data, ".rb".data, ".php".data, ".cs".data ]

def is_code_file (path : List Char) : Bool :=
  code_exts.any (fun e => e.isSuffixOf path)

/-- `os.path.splitext(file_path)[1]`: the extension starts at the last dot of
the basename, provided some earlier character of the basename is not a dot. -/
def splitext_ext (p : List Char) : List Char :=
  let base := (p.reverse.takeWhile (fun c => c ≠ '/')).reverse
  let afterDot := base.reverse.takeWhile (fun c => c ≠ '.')
  if afterDot.length = base.length then []
  else
    let stem := base.take (base.length - afterDot.length - 1)
    if stem.any (fun c => c ≠ '.') then base.drop stem.length else []

def detect_lang (ext : List Char) (_code : List Char) : List Char :=
  if ext = ".py".data then "python".data
  else if ext = ".js".data then "javascript".data
  else if ext = ".ts".data then "typescript".data
  else if ext = ".rs".data then "rust".data
  else if ext = ".go".data then "go".data
  else if ext = ".c".data then "c".data
  else if ext = ".cpp".data then "cpp".data
  else if ext = ".java".data then "java".data
  else if ext = ".rb".data then "ruby".data
  else if ext = ".php".data then "php".data
  else if ext = ".cs".data then "csharp".data
  else "unknown".data

def get_ext (lang : List Char) : List Char :=
  if lang = "python".data then ".py".data
  else if lang = "javascript".data then ".js".data
  else if lang = "typescript".data then ".ts".data
  else if lang = "rust".data then ".rs".data
  else if lang = "go".data then ".go".data
  else if lang = "c".data then ".c".data
  else if lang = "cpp".data then ".cpp".data
  else if lang = "java".data then ".java".data
  else if lang = "ruby".data then ".rb".data
  else if lang = "php".data then ".php".data
  else if lang = "csharp".data then ".cs".data
  else ".txt".data

/-- Python `str.replace(pat, rep)`: replace all non-overlapping occurrences
left to right (for an empty pattern, `rep` is inserted at every position). -/
def strReplaceGo (pat rep : List Char) : Nat → List Char → List Char
  | 0, s => s
  | _ + 1, [] => []
  | fuel + 1, c :: rest =>
    if pat ≠ [] ∧ pat.isPrefixOf (c :: rest) then
      rep ++ strReplaceGo pat rep fuel ((c :: rest).drop pat.length)
    else c :: strReplaceGo pat rep fuel rest

def strReplace (s pat rep : List Char) : List Char :=
  if pat = [] then rep ++ s.flatMap (fun c => c :: rep)
  else strReplaceGo pat rep s.length s

def apply_mod (code : List Char) (m : List Char) : List Char :=
  let m' := toLowerL (stripWs m)
  if ("add auth".data) <:+: m' then code ++ "\n# AUTH ADDED: JWT middleware".data
  else code

/-- The body of the `for file_path in files:` loop: `some (new_path, new_code)`
when the file is processed and written, `none` when it is skipped. -/
def processFile (target_lang : List Char) (mods : List (List Char)) (optimize_flag : Bool)
    (f : SrcFile) : Option (List Char × List Char) :=
  if is_code_file f.path then
    if f.content = [] then none
    else
      let ext := splitext_ext f.path
      let src_lang := detect_lang ext f.content
      let c1 :=
        if src_lang ≠ [] ∧ src_lang ≠ target_lang then
          match transpile { fromLang := src_lang, toLang := target_lang, code := f.content } with
          | Except.ok r => r.code
          | Except.error _ => f.content
        else f.content
      let c2 := if optimize_flag then (optimize c1 target_lang).optimized_code else c1
      let c3 := mods.foldl apply_mod c2
      let new_path := strReplace f.path ext (get_ext target_lang)
      some (new_path, c3)
  else none

def reconstruct_repo (url target_lang : List Char) (mods : List (List Char))
    (optimize_flag : Bool) (cloned : Option (List SrcFile))
    (push_url : Option (List Char)) : Except (List Char) ReconOut :=
  match cloned with
  | none => Except.error ("Clone failed".data)
  | some files =>
    let new_files := files.filterMap (processFile target_lang mods optimize_flag)
    Except.ok { original := url, new_repo := push_url, language := target_lang,
                files_transpiled := new_files.length, modifications := mods,
                status := "reconstructed".data }

/-! ## Auxiliary definitions used in claim statements -/

/-- Convenience projection: the output code of a transpile result. -/
def codeOf : Except (List Char) TranspileOut → List Char
  | Except.ok r => r.code
  | Except.error _ => []

/-- The leading whitespace of the line is made of spaces only and is an exact
multiple of a `u`-character indentation unit. -/
def IndentOk (u : Nat) (l : List Char) : Prop :=
  (l.takeWhile isPyWs).length % u = 0 ∧
    l.takeWhile isPyWs = List.replicate (l.takeWhile isPyWs).length ' '

instance (u : Nat) (l : List Char) : Decidable (IndentOk u l) := by
  unfold IndentOk; infer_instance

/-- Per-line indentation depth of a text, with indentation unit `u`. -/
def depthsAt (u : Nat) (code : List Char) : List Nat :=
  (splitNl code).map (fun l => (l.length - (l.dropWhile isPyWs).length) / u)

/-- Identifier-shaped: non-empty, all word characters, first character a
letter or underscore (the shape of the tokens of `pyTokens`). -/
def identShapedB (t : List Char) : Bool :=
  (match t.head? with | some c => isAlphaUnder c | none => false) && t.all isWordChar

/-! # Theorems -/

/-! ## Lines infrastructure -/

theorem splitNl_ne_nil (s : List Char) : splitNl s ≠ [] := by
  cases s with
  | nil => simp [splitNl]
  | cons c rest =>
    simp only [splitNl]
    by_cases hc : c = '\n'
    · rw [if_pos hc]; simp
    · rw [if_neg hc]
      cases h : splitNl rest with
      | nil => simp
      | cons l ls => simp

theorem mem_splitNl_no_nl (s : List Char) : ∀ l ∈ splitNl s, '\n' ∉ l := by
  induction s with
  | nil =>
    intro l hl
    simp [splitNl] at hl
    simp [hl]
  | cons c rest ih =>
    intro l hl
    simp only [splitNl] at hl
    by_cases hc : c = '\n'
    · rw [if_pos hc] at hl
      rcases List.mem_cons.mp hl with h | h
      · simp [h]
      · exact ih l h
    · rw [if_neg hc] at hl
      cases hsp : splitNl rest with
      | nil => exact absurd hsp (splitNl_ne_nil rest)
      | cons t ts =>
        rw [hsp] at hl
        rcases List.mem_cons.mp hl with h | h
        · subst h
          intro hmem
          rcases List.mem_cons.mp hmem with h1 | h1
          · exact hc h1.symm
          · exact ih t (by rw [hsp]; exact List.mem_cons_self t ts) h1
        · exact ih l (by rw [hsp]; exact List.mem_cons_of_mem t h)

theorem joinNl_cons_of_ne (l : List Char) (ls : List (List Char)) (h : ls ≠ []) :
    joinNl (l :: ls) = l ++ '\n' :: joinNl ls := by
  cases ls with
  | nil => exact absurd rfl h
  | cons l2 ls2 => rfl

theorem joinNl_splitNl (s : List Char) : joinNl (splitNl s) = s := by
  induction s with
  | nil => rfl
  | cons c rest ih =>
    simp only [splitNl]
    by_cases hc : c = '\n'
    · rw [if_pos hc]
      rw [joinNl_cons_of_ne _ _ (splitNl_ne_nil rest), ih, hc]
      rfl
    · rw [if_neg hc]
      cases hsp : splitNl rest with
      | nil => exact absurd hsp (splitNl_ne_nil rest)
      | cons t ts =>
        have hjoin : joinNl (t :: ts) = rest := by rw [← hsp, ih]
        cases ts with
        | nil =>
          simp only [joinNl] at hjoin ⊢
          rw [hjoin]
        | cons t2 ts2 =>
          have : joinNl ((c :: t) :: t2 :: ts2) = (c :: t) ++ '\n' :: joinNl (t2 :: ts2) := rfl
          rw [this]
          have : joinNl (t :: t2 :: ts2) = t ++ '\n' :: joinNl (t2 :: ts2) := rfl
          rw [this] at hjoin
          rw [List.cons_append, hjoin]

theorem splitNl_no_nl (l : List Char) (h : '\n' ∉ l) : splitNl l = [l] := by
  induction l with
  | nil => rfl
  | cons c rest ih =>
    simp only [splitNl]
    rw [if_neg (fun hc => h (by rw [hc]; exact List.mem_cons_self _ _))]
    rw [ih (fun hm => h (List.mem_cons_of_mem c hm))]

theorem splitNl_append_nl (l t : List Char) (h : '\n' ∉ l) :
    splitNl (l ++ '\n' :: t) = l :: splitNl t := by
  induction l with
  | nil =>
    simp [splitNl]
  | cons c rest ih =>
    simp only [List.cons_append, splitNl, List.append_eq]
    rw [if_neg (fun hc => h (by rw [hc]; exact List.mem_cons_self _ _))]
    rw [ih (fun hm => h (List.mem_cons_of_mem c hm))]

theorem splitNl_joinNl (ls : List (List Char)) (hne : ls ≠ [])
    (hnl : ∀ l ∈ ls, '\n' ∉ l) : splitNl (joinNl ls) = ls := by
  induction ls with
  | nil => exact absurd rfl hne
  | cons l ls ih =>
    cases ls with
    | nil => exact splitNl_no_nl l (hnl l (List.mem_cons_self _ _))
    | cons l2 ls2 =>
      rw [joinNl_cons_of_ne _ _ (by simp)]
      rw [splitNl_append_nl l _ (hnl l (List.mem_cons_self _ _))]
      rw [ih (by simp) (fun x hx => hnl x (List.mem_cons_of_mem l hx))]

/-! ## Claim C9: determinism of `transpile` -/

/-- Claim C9 (confirmed): for a fixed input code and language pair, any two
runs of `transpile` yield identical output — the embedded `transpile` is a
pure function of the `from`/`to`/`code` fields, so two calls on equal fields
return byte-identical results (rule application is an ordered fold, with no
other inputs). -/
theorem transpile_deterministic (t u : TranspileTask) (h1 : t.fromLang = u.fromLang)
    (h2 : t.toLang = u.toLang) (h3 : t.code = u.code) : transpile t = transpile u := by
  have h : t = u := by cases t; cases u; simp_all
  rw [h]

theorem transpile_deterministic_witness :
    transpile { fromLang := "python".data, toLang := "javascript".data, code := "print(1)".data }
      = transpile { fromLang := "python".data, toLang := "javascript".data,
                    code := "print".data ++ "(1)".data } :=
  transpile_deterministic _ _ rfl rfl (by decide)

/-! ## Claim C10: `optimize` is the identity for languages without a pass -/

/-- Claim C10 (confirmed): for every text and every language identifier whose
lowercase form is neither "python" nor "javascript" (e.g. the pipeline's
default target "rust"), `optimize` returns the code unchanged, with an empty
improvements list and savings equal to 0. -/
theorem optimize_foreign_language_identity (code language : List Char)
    (h1 : toLowerL language ≠ "python".data) (h2 : toLowerL language ≠ "javascript".data) :
    optimize code language =
      { optimized_code := code, original_code := code, improvements := [], savings := 0,
        language := toLowerL language } := by
  simp only [optimize]
  rw [if_neg h1, if_neg h2]
  simp

theorem optimize_foreign_language_identity_witness :
    optimize ("let x = 1;".data) ("rust".data) =
      { optimized_code := "let x = 1;".data, original_code := "let x = 1;".data,
        improvements := [], savings := 0, language := "rust".data } :=
  (optimize_foreign_language_identity ("let x = 1;".data) ("rust".data)
    (by decide) (by decide)).trans (by decide)

/-! ## Claim C6: unsupported pairs -/

/-- Claim C6 (confirmed): when the lowered (from, to) pair has no rule table,
`transpile` returns exactly the error payload naming the unsupported pair —
no transformed code is produced (the error carries only the message), and the
embedded function is total, so no exception escapes. -/
theorem transpile_unsupported_error (task : TranspileTask)
    (h : TRANSPILE_RULES (toLowerL task.fromLang, toLowerL task.toLang) = none) :
    transpile task
      = Except.error (unsupportedMsg (toLowerL task.fromLang) (toLowerL task.toLang)) := by
  simp only [transpile]
  rw [h]

theorem transpile_unsupported_error_witness :
    transpile { fromLang := "rust".data, toLang := "go".data, code := "fn main()".data }
      = Except.error ("Transpilation rust → go not supported".data) :=
  (transpile_unsupported_error
    { fromLang := "rust".data, toLang := "go".data, code := "fn main()".data }
    (by decide)).trans rfl

/-! ## Claim C4: placeholder removal ignores block emptiness -/

/-- Claim C4 (code_bug): the spec requires a bare `pass` to be removed only
when it is provably not the sole statement of its block, and kept whenever
block-emptiness cannot be proven.  In the code `is_empty_block` is the stub
`return False  # Simplified`, so `optimize_python` removes every bare `pass`
— here the `pass` that is the only statement of `def f():` is removed,
leaving an empty (invalid) block, contradicting the code's own comment
"Remove pass in non-empty blocks". -/
theorem optimize_python_removes_sole_pass :
    optimize ("def f():\n    pass".data) ("python".data) =
      { optimized_code := "def f():".data, original_code := "def f():\n    pass".data,
        improvements := [ "Removed unnecessary pass".data ], savings := 9,
        language := "python".data } := by rfl

/-! ## Claim C5: publish failure is not job-fatal in the code -/

/-- Claim C5 counterexample: a job whose clone succeeds (here with an empty
file list) and whose `commit_and_push` fails (returns `None`) does NOT end in
a failed/error response as the claim states: the code returns the success
payload with status "reconstructed" and a null `new_repo`. -/
theorem reconstruct_publish_failure_cex :
    reconstruct_repo ("https://github.com/example/app".data) ("rust".data) [] true
        (some []) none
      = Except.ok { original := "https://github.com/example/app".data, new_repo := none,
                    language := "rust".data, files_transpiled := 0, modifications := [],
                    status := "reconstructed".data } := rfl

/-- Claim C5 (corrected): failure of the commit-and-push step is not
job-fatal — for every job that reaches the publish step, a failed push
(`commit_and_push` returning `None`) still yields the success payload with
status "reconstructed" and `new_repo` null; no error response is produced
and the assembled artifact is not rolled back. -/
theorem reconstruct_publish_failure_soft (url target : List Char) (mods : List (List Char))
    (flag : Bool) (files : List SrcFile) :
    ∃ r, reconstruct_repo url target mods flag (some files) none = Except.ok r ∧
      r.new_repo = none ∧ r.status = "reconstructed".data :=
  ⟨_, rfl, rfl, rfl⟩

/-! ## Claim C1: per-file failure isolation -/

/-- Claim C1 counterexample: a file whose transpilation fails is NOT marked
failed and skipped as the claim states: for a job with the single file
`a.py` (readable, non-empty) and target "rust", `transpile` fails with the
unsupported-pair error, yet the file is written with its original code and
counted, so `files_transpiled = 1`, not 0. -/
theorem reconstruct_transpile_failure_counted :
    (∃ e, transpile { fromLang := "python".data, toLang := "rust".data, code := "x = 1".data }
        = Except.error e) ∧
    reconstruct_repo ("u".data) ("rust".data) [] true
        (some [ { path := "a.py".data, content := "x = 1".data } ]) none
      = Except.ok { original := "u".data, new_repo := none, language := "rust".data,
                    files_transpiled := 1, modifications := [],
                    status := "reconstructed".data } :=
  ⟨⟨_, rfl⟩, rfl⟩

/-- Claim C1 (amended): for every job whose clone succeeds with N enumerated
files, per-file problems never abort the job: the job always completes with
status "reconstructed" and `files_transpiled ≤ N`; a file with unreadable
(empty) content is skipped and not counted; but a readable code file whose
transpilation fails is not skipped — it is processed with its original code
as fallback and is counted. -/
theorem reconstruct_partial_failure_isolated (url target : List Char)
    (mods : List (List Char)) (flag : Bool) (files : List SrcFile)
    (push : Option (List Char)) :
    (∃ r, reconstruct_repo url target mods flag (some files) push = Except.ok r ∧
      r.status = "reconstructed".data ∧ r.files_transpiled ≤ files.length) ∧
    (∀ f : SrcFile, f.content = [] → processFile target mods flag f = none) ∧
    (∀ f : SrcFile, is_code_file f.path = true → f.content ≠ [] →
      ∃ pc, processFile target mods flag f = some pc) := by
  refine ⟨⟨_, rfl, rfl, ?_⟩, ?_, ?_⟩
  · exact List.length_filterMap_le _ _
  · intro f hf
    unfold processFile
    by_cases hc : is_code_file f.path
    · rw [if_pos hc, if_pos hf]
    · rw [if_neg hc]
  · intro f hc hne
    unfold processFile
    rw [if_pos hc, if_neg hne]
    exact ⟨_, rfl⟩

theorem reconstruct_partial_failure_isolated_witness :
    processFile ("rust".data) [] true { path := "b.py".data, content := [] } = none ∧
    ∃ pc, processFile ("rust".data) [] true { path := "a.py".data, content := "x = 1".data }
      = some pc :=
  ⟨(reconstruct_partial_failure_isolated ("u".data) ("rust".data) [] true [] none).2.1 _ rfl,
   (reconstruct_partial_failure_isolated ("u".data) ("rust".data) [] true [] none).2.2 _
     (by decide) (by decide)⟩

/-! ## Claim C2: texts with no recognised construct -/

theorem scanSub_of_no_match (pat : List Atom) (repl : List ReplItem) (s : List Char) :
    ∀ fuel prev, hasMatchFrom pat prev s = false → scanSub pat repl fuel prev s = s := by
  induction s with
  | nil => intro fuel prev _; cases fuel <;> rfl
  | cons c rest ih =>
    intro fuel prev h
    rw [hasMatchFrom, Bool.or_eq_false_iff] at h
    have hm : matchSeq prev pat (c :: rest) = none := by
      cases hm : matchSeq prev pat (c :: rest) with
      | none => rfl
      | some v => rw [hm] at h; simp at h
    cases fuel with
    | zero => rfl
    | succ f =>
      simp only [scanSub, hm]
      rw [ih f (some c) h.2]

theorem subAll_of_no_match (pat : List Atom) (repl : List ReplItem) (s : List Char)
    (h : hasMatch pat s = false) : subAll pat repl s = s :=
  scanSub_of_no_match pat repl s s.length none h

theorem applyRules_of_no_match (rules : List (List Atom × List ReplItem)) (s : List Char)
    (h : ∀ pr ∈ rules, hasMatch pr.1 s = false) : applyRules rules s = s := by
  induction rules with
  | nil => rfl
  | cons r rs ih =>
    have h1 : subAll r.1 r.2 s = s := subAll_of_no_match r.1 r.2 s (h r (List.mem_cons_self _ _))
    show applyRules rs (subAll r.1 r.2 s) = s
    rw [h1]
    exact ih (fun pr hpr => h pr (List.mem_cons_of_mem r hpr))

theorem transpile_pyjs_unfold (code : List Char) :
    transpile { fromLang := "python".data, toLang := "javascript".data, code := code } = Except.ok { code := close_blocks (fix_indentation ("    ".data) ("  ".data) (applyRules rulesPyJs code)), fromLang := "python".data, toLang := "javascript".data, status := "transpiled".data } := by
  simp only [transpile]
  rw [show toLowerL ("python".data) = "python".data from rfl,
      show toLowerL ("javascript".data) = "javascript".data from rfl]
  rw [show TRANSPILE_RULES ("python".data, "javascript".data) = some rulesPyJs from rfl]
  rw [show INDENT_MAP ("python".data, "javascript".data) = ("    ".data, "  ".data) from rfl]
  simp only [Prod.fst, Prod.snd]
  rw [if_pos (by decide :
    (("    ".data, "  ".data).1 ≠ ([] : List Char) ∧ ("    ".data, "  ".data).2 ≠ ([] : List Char)))]
  simp

theorem transpile_jspy_unfold (code : List Char) :
    transpile { fromLang := "javascript".data, toLang := "python".data, code := code } = Except.ok { code := fix_indentation ("  ".data) ("    ".data) (applyRules rulesJsPy code), fromLang := "javascript".data, toLang := "python".data, status := "transpiled".data } := by
  simp only [transpile]
  rw [show toLowerL ("javascript".data) = "javascript".data from rfl,
      show toLowerL ("python".data) = "python".data from rfl]
  rw [show TRANSPILE_RULES ("javascript".data, "python".data) = some rulesJsPy from rfl]
  rw [show INDENT_MAP ("javascript".data, "python".data) = ("  ".data, "    ".data) from rfl]
  simp only [Prod.fst, Prod.snd]
  rw [if_pos (by decide :
    (("  ".data, "    ".data).1 ≠ ([] : List Char) ∧ ("  ".data, "    ".data).2 ≠ ([] : List Char)))]
  simp

/-- Claim C2 counterexample: for the pair (python, javascript) the claim
fails: the text "foo\nbar" matches no rewrite rule of the pair, yet
`transpile` does not return it unchanged up to indentation remapping — the
block-closing pass inserts a brace line, giving "foo\n}\nbar", while
indentation remapping alone leaves "foo\nbar" as is. -/
theorem transpile_no_construct_cex :
    (∀ pr ∈ rulesPyJs, hasMatch pr.1 ("foo\nbar".data) = false) ∧
    transpile { fromLang := "python".data, toLang := "javascript".data, code := "foo\nbar".data }
      = Except.ok { code := "foo\n".data ++ rbrace :: "\nbar".data,
                    fromLang := "python".data, toLang := "javascript".data,
                    status := "transpiled".data } ∧
    fix_indentation ("    ".data) ("  ".data) ("foo\nbar".data) = "foo\nbar".data ∧
    ("foo\n".data ++ rbrace :: "\nbar".data) ≠ "foo\nbar".data :=
  ⟨by decide, by rfl, by rfl, by decide⟩

/-- Claim C2 (amended): for a source text in which no rewrite rule of the
pair matches anywhere, `transpile` returns status "transpiled" and the text
unchanged except for per-line indentation remapping AND, for the
(python, javascript) pair only, the block-closing pass (a closing-brace line
inserted after every newline not followed by whitespace or a brace); for
(javascript, python) the text is exactly indentation-remapped.  In
particular "x = 1" for (python, javascript) yields code containing
"let x = 1;". -/
theorem transpile_no_construct_amended :
    (∀ code, (∀ pr ∈ rulesPyJs, hasMatch pr.1 code = false) →
      transpile { fromLang := "python".data, toLang := "javascript".data, code := code }
        = Except.ok { code := close_blocks (fix_indentation ("    ".data) ("  ".data) code),
                      fromLang := "python".data, toLang := "javascript".data,
                      status := "transpiled".data }) ∧
    (∀ code, (∀ pr ∈ rulesJsPy, hasMatch pr.1 code = false) →
      transpile { fromLang := "javascript".data, toLang := "python".data, code := code }
        = Except.ok { code := fix_indentation ("  ".data) ("    ".data) code,
                      fromLang := "javascript".data, toLang := "python".data,
                      status := "transpiled".data }) ∧
    (∃ r, transpile { fromLang := "python".data, toLang := "javascript".data,
                      code := "x = 1".data } = Except.ok r ∧
          ("let x = 1;".data) <:+: r.code) := by
  refine ⟨?_, ?_, ⟨_, rfl, by decide⟩⟩
  · intro code h
    rw [transpile_pyjs_unfold code, applyRules_of_no_match rulesPyJs code h]
  · intro code h
    rw [transpile_jspy_unfold code, applyRules_of_no_match rulesJsPy code h]

theorem transpile_no_construct_amended_witness :
    transpile { fromLang := "python".data, toLang := "javascript".data, code := "hello".data }
      = Except.ok { code := "hello".data, fromLang := "python".data,
                    toLang := "javascript".data, status := "transpiled".data } ∧
    transpile { fromLang := "javascript".data, toLang := "python".data, code := "hello".data }
      = Except.ok { code := "hello".data, fromLang := "javascript".data,
                    toLang := "python".data, status := "transpiled".data } :=
  ⟨(transpile_no_construct_amended.1 ("hello".data) (by decide)).trans rfl,
   (transpile_no_construct_amended.2.1 ("hello".data) (by decide)).trans rfl⟩

/-! ## Claim C8: indentation round trip -/

theorem flatten_replicate_replicate (n j : Nat) (c : Char) :
    (List.replicate n (List.replicate j c)).flatten = List.replicate (n * j) c := by
  induction n with
  | zero => simp
  | succ n ih =>
    rw [List.replicate_succ, List.flatten_cons, ih, Nat.succ_mul, Nat.add_comm,
      List.replicate_add]

theorem dropWhile_append_all (p : Char → Bool) (pre l2 : List Char)
    (h : ∀ x ∈ pre, p x = true) : List.dropWhile p (pre ++ l2) = List.dropWhile p l2 := by
  induction pre with
  | nil => rfl
  | cons c rest ih =>
    rw [List.cons_append, List.dropWhile_cons, if_pos (h c (List.mem_cons_self _ _))]
    exact ih (fun x hx => h x (List.mem_cons_of_mem c hx))

theorem dropWhile_self_idem (p : Char → Bool) (l : List Char) :
    List.dropWhile p (List.dropWhile p l) = List.dropWhile p l := by
  induction l with
  | nil => rfl
  | cons c rest ih =>
    rw [List.dropWhile_cons]
    by_cases hp : p c = true
    · rw [if_pos hp]; exact ih
    · rw [if_neg hp, List.dropWhile_cons, if_neg hp]

theorem length_takeWhile_add_dropWhile (p : Char → Bool) (l : List Char) :
    (l.takeWhile p).length + (l.dropWhile p).length = l.length := by
  conv_rhs => rw [← List.takeWhile_append_dropWhile (p := p) (l := l)]
  rw [List.length_append]

theorem fixLine_round (a b : Nat) (hb : 0 < b) (l : List Char)
    (h : IndentOk a l) :
    fixLine (List.replicate b ' ') (List.replicate a ' ')
      (fixLine (List.replicate a ' ') (List.replicate b ' ') l) = l := by
  obtain ⟨hm, hsp⟩ := h
  have hsplit : l.takeWhile isPyWs ++ l.dropWhile isPyWs = l :=
    List.takeWhile_append_dropWhile isPyWs l
  have hlensum : (l.takeWhile isPyWs).length + (l.dropWhile isPyWs).length = l.length :=
    length_takeWhile_add_dropWhile isPyWs l
  have hlen : l.length - (l.dropWhile isPyWs).length = (l.takeWhile isPyWs).length := by
    omega
  have hfirst : fixLine (List.replicate a ' ') (List.replicate b ' ') l
      = List.replicate ((l.takeWhile isPyWs).length / a * b) ' ' ++ l.dropWhile isPyWs := by
    simp only [fixLine]
    rw [hlen, List.length_replicate, flatten_replicate_replicate]
  have hdrop2 : List.dropWhile isPyWs
      (List.replicate ((l.takeWhile isPyWs).length / a * b) ' ' ++ l.dropWhile isPyWs)
      = l.dropWhile isPyWs := by
    rw [dropWhile_append_all isPyWs _ _
      (fun x hx => by rw [List.eq_of_mem_replicate hx]; rfl)]
    exact dropWhile_self_idem isPyWs l
  have hlen2 : (List.replicate ((l.takeWhile isPyWs).length / a * b) ' '
      ++ l.dropWhile isPyWs).length - (l.dropWhile isPyWs).length
      = (l.takeWhile isPyWs).length / a * b := by
    rw [List.length_append, List.length_replicate]
    omega
  rw [hfirst]
  simp only [fixLine]
  rw [hdrop2, hlen2, List.length_replicate, flatten_replicate_replicate]
  rw [Nat.mul_div_cancel _ hb]
  rw [Nat.div_mul_cancel (Nat.dvd_of_mod_eq_zero hm)]
  rw [← hsp]
  exact hsplit

theorem fixLine_no_nl (a b : Nat) (l : List Char) (h : '\n' ∉ l) :
    '\n' ∉ fixLine (List.replicate a ' ') (List.replicate b ' ') l := by
  simp only [fixLine]
  intro hmem
  rcases List.mem_append.mp hmem with hm | hm
  · rw [flatten_replicate_replicate] at hm
    have := List.eq_of_mem_replicate hm
    simp at this
  · exact h ((List.dropWhile_sublist (p := isPyWs) (l := l)).mem hm)

theorem fix_indentation_round (a b : Nat) (hb : 0 < b) (code : List Char)
    (h : ∀ l ∈ splitNl code, IndentOk a l) :
    fix_indentation (List.replicate b ' ') (List.replicate a ' ')
      (fix_indentation (List.replicate a ' ') (List.replicate b ' ') code) = code := by
  unfold fix_indentation
  rw [splitNl_joinNl ((splitNl code).map (fixLine (List.replicate a ' ') (List.replicate b ' ')))
    (by
      intro hempty
      exact splitNl_ne_nil code (List.map_eq_nil_iff.mp hempty))
    (by
      intro x hx
      obtain ⟨l, hl, hlx⟩ := List.mem_map.mp hx
      rw [← hlx]
      exact fixLine_no_nl a b l (mem_splitNl_no_nl code l hl))]
  rw [List.map_map]
  have hcongr : (splitNl code).map
      (fixLine (List.replicate b ' ') (List.replicate a ' ') ∘
       fixLine (List.replicate a ' ') (List.replicate b ' '))
      = (splitNl code).map id := by
    apply List.map_congr_left
    intro l hl
    exact fixLine_round a b hb l (h l hl)
  rw [hcongr, List.map_id]
  exact joinNl_splitNl code

/-- Claim C8 counterexample: a full transpile round trip does not restore
per-line indentation depth even on a text whose every line is exactly
4-space-multiple indented: "    b\nc\n    d" comes back as
"    b\n}\nc\n    d" — the inserted closing-brace line shifts the following
lines, so the per-line depth list changes from [1,0,1] to [1,0,0,1]. -/
theorem transpile_round_trip_cex :
    (∀ l ∈ splitNl ("    b\nc\n    d".data), IndentOk 4 l) ∧
    codeOf (transpile { fromLang := "javascript".data, toLang := "python".data, code := codeOf (transpile { fromLang := "python".data, toLang := "javascript".data, code := "    b\nc\n    d".data }) })
      = "    b\n".data ++ rbrace :: "\nc\n    d".data ∧
    depthsAt 4 ("    b\n".data ++ rbrace :: "\nc\n    d".data)
      ≠ depthsAt 4 ("    b\nc\n    d".data) :=
  ⟨by decide, by rfl, by decide⟩

/-- Claim C8 (amended): the indentation-remapping stage of `transpile`
(lines 53-63 of transpiler.py, driven by INDENT_MAP) does round-trip: for a
text whose every line's leading whitespace is spaces forming an exact
multiple of the source unit, remapping (python→javascript) then
(javascript→python) — or (javascript→python) then (python→javascript) —
returns exactly the original text, hence restores every line's indentation
depth.  The full `transpile` pipeline does not, because of the inserted
closing-brace lines of the block-closing pass. -/
theorem fix_indentation_round_trip :
    (∀ code, (∀ l ∈ splitNl code, IndentOk 4 l) →
      fix_indentation ("  ".data) ("    ".data)
        (fix_indentation ("    ".data) ("  ".data) code) = code) ∧
    (∀ code, (∀ l ∈ splitNl code, IndentOk 2 l) →
      fix_indentation ("    ".data) ("  ".data)
        (fix_indentation ("  ".data) ("    ".data) code) = code) := by
  have h4 : "    ".data = List.replicate 4 ' ' := by decide
  have h2 : "  ".data = List.replicate 2 ' ' := by decide
  constructor
  · intro code h
    rw [h4, h2]
    exact fix_indentation_round 4 2 (by omega) code h
  · intro code h
    rw [h4, h2]
    exact fix_indentation_round 2 4 (by omega) code h

theorem fix_indentation_round_trip_witness :
    fix_indentation ("  ".data) ("    ".data)
      (fix_indentation ("    ".data) ("  ".data) ("def f():\n    x = 1".data))
      = "def f():\n    x = 1".data ∧
    fix_indentation ("    ".data) ("  ".data)
      (fix_indentation ("  ".data) ("    ".data) ("while (a) do\n  b();".data))
      = "while (a) do\n  b();".data :=
  ⟨fix_indentation_round_trip.1 ("def f():\n    x = 1".data) (by decide),
   fix_indentation_round_trip.2 ("while (a) do\n  b();".data) (by decide)⟩

/-! ## Token infrastructure for the optimizer claims

`pyTokens` collects the maximal word-character runs that start with a letter
or underscore, which is exactly the match set of
`re.findall(r'\b([a-zA-Z_]\w*)\b', code)`. -/

theorem wordRunsAux_mem (s : List Char) :
    ∀ (cur : List Char), (∀ c ∈ cur, isWordChar c = true) →
    ∀ t ∈ wordRunsAux cur s, t ≠ [] ∧ ∀ c ∈ t, isWordChar c = true := by
  induction s with
  | nil =>
    intro cur hc t ht
    simp only [wordRunsAux] at ht
    by_cases hcur : cur = []
    · rw [if_pos hcur] at ht; simp at ht
    · rw [if_neg hcur] at ht
      rcases List.mem_singleton.mp ht with h
      subst h
      refine ⟨by simpa using hcur, ?_⟩
      intro c hcmem
      exact hc c (List.mem_reverse.mp hcmem)
  | cons c rest ih =>
    intro cur hc t ht
    simp only [wordRunsAux] at ht
    by_cases hw : isWordChar c = true
    · rw [if_pos hw] at ht
      exact ih (c :: cur) (by
        intro x hx
        rcases List.mem_cons.mp hx with h | h
        · rw [h]; exact hw
        · exact hc x h) t ht
    · rw [if_neg hw] at ht
      by_cases hcur : cur = []
      · rw [if_pos hcur] at ht
        exact ih [] (by simp) t ht
      · rw [if_neg hcur] at ht
        rcases List.mem_cons.mp ht with h | h
        · subst h
          refine ⟨by simpa using hcur, ?_⟩
          intro x hx
          exact hc x (List.mem_reverse.mp hx)
        · exact ih [] (by simp) t h

theorem mem_pyTokens_shaped (s t : List Char) (h : t ∈ pyTokens s) :
    identShapedB t = true := by
  obtain ⟨hruns, hpred⟩ := List.mem_filter.mp h
  obtain ⟨hne, hall⟩ := wordRunsAux_mem s [] (by simp) t hruns
  simp only [identShapedB, Bool.and_eq_true]
  constructor
  · exact hpred
  · rw [List.all_eq_true]
    intro c hc
    exact hall c hc

theorem wordRunsAux_run (m : List Char) :
    ∀ (cur B : List Char), cur ≠ [] →
    (∀ c ∈ m, isWordChar c = true) →
    (B = [] ∨ ∃ c B', B = c :: B' ∧ isWordChar c = false) →
    ∃ rest, wordRunsAux cur (m ++ B) = (cur.reverse ++ m) :: rest := by
  induction m with
  | nil =>
    intro cur B hcur _ hB
    rcases hB with hB | ⟨c, B', hBeq, hcw⟩
    · subst hB
      exact ⟨[], by simp [wordRunsAux, hcur]⟩
    · subst hBeq
      exact ⟨wordRunsAux [] B', by simp [wordRunsAux, hcur, hcw]⟩
  | cons d m' ih =>
    intro cur B hcur hm hB
    have hd : isWordChar d = true := hm d (List.mem_cons_self _ _)
    obtain ⟨rest, hr⟩ := ih (d :: cur) B (List.cons_ne_nil _ _)
      (fun c hc => hm c (List.mem_cons_of_mem d hc)) hB
    refine ⟨rest, ?_⟩
    have hstep : wordRunsAux cur ((d :: m') ++ B) = wordRunsAux (d :: cur) (m' ++ B) := by
      simp [wordRunsAux, hd]
    rw [hstep, hr, List.reverse_cons, List.append_assoc, List.singleton_append]

theorem wordRunsAux_start (m B : List Char) (hm : m ≠ [])
    (hw : ∀ c ∈ m, isWordChar c = true)
    (hB : B = [] ∨ ∃ c B', B = c :: B' ∧ isWordChar c = false) :
    ∃ rest, wordRunsAux [] (m ++ B) = m :: rest := by
  cases m with
  | nil => exact absurd rfl hm
  | cons d m' =>
    have hd : isWordChar d = true := hw d (List.mem_cons_self _ _)
    obtain ⟨rest, hr⟩ := wordRunsAux_run m' [d] B (List.cons_ne_nil _ _)
      (fun c hc => hw c (List.mem_cons_of_mem d hc)) hB
    refine ⟨rest, ?_⟩
    have hstep : wordRunsAux [] ((d :: m') ++ B) = wordRunsAux [d] (m' ++ B) := by
      simp [wordRunsAux, hd]
    rw [hstep, hr]
    rfl

theorem mem_wordRunsAux_decomp (A : List Char) :
    ∀ (cur mod B : List Char),
    (A = [] → cur = []) →
    (∀ c, A.getLast? = some c → isWordChar c = false) →
    mod ≠ [] → (∀ c ∈ mod, isWordChar c = true) →
    (B = [] ∨ ∃ c B', B = c :: B' ∧ isWordChar c = false) →
    mod ∈ wordRunsAux cur (A ++ mod ++ B) := by
  induction A with
  | nil =>
    intro cur mod B hcur _ hm hw hB
    rw [hcur rfl, List.nil_append]
    obtain ⟨rest, hr⟩ := wordRunsAux_start mod B hm hw hB
    rw [hr]
    exact List.mem_cons_self _ _
  | cons a A' ih =>
    intro cur mod B hcur hlast hm hw hB
    cases A' with
    | nil =>
      have ha : isWordChar a = false := hlast a rfl
      obtain ⟨rest, hr⟩ := wordRunsAux_start mod B hm hw hB
      have hstep : ([a] ++ mod) ++ B = a :: (mod ++ B) := by simp
      rw [hstep]
      by_cases hc : cur = []
      · have : wordRunsAux cur (a :: (mod ++ B)) = wordRunsAux [] (mod ++ B) := by
          simp [wordRunsAux, ha, hc]
        rw [this, hr]
        exact List.mem_cons_self _ _
      · have : wordRunsAux cur (a :: (mod ++ B))
            = cur.reverse :: wordRunsAux [] (mod ++ B) := by
          simp [wordRunsAux, ha, hc]
        rw [this, hr]
        exact List.mem_cons_of_mem _ (List.mem_cons_self _ _)
    | cons a2 A'' =>
      have hlast' : ∀ c, (a2 :: A'').getLast? = some c → isWordChar c = false := by
        intro c hc
        apply hlast
        rw [List.getLast?_cons_cons]
        exact hc
      have hstep : ((a :: a2 :: A'') ++ mod) ++ B = a :: ((a2 :: A'') ++ mod ++ B) := by
        simp
      rw [hstep]
      by_cases hwa : isWordChar a = true
      · have : wordRunsAux cur (a :: ((a2 :: A'') ++ mod ++ B))
            = wordRunsAux (a :: cur) ((a2 :: A'') ++ mod ++ B) := by
          simp [wordRunsAux, hwa]
        rw [this]
        exact ih (a :: cur) mod B (fun h => absurd h (List.cons_ne_nil _ _)) hlast' hm hw hB
      · by_cases hc : cur = []
        · have : wordRunsAux cur (a :: ((a2 :: A'') ++ mod ++ B))
              = wordRunsAux [] ((a2 :: A'') ++ mod ++ B) := by
            simp [wordRunsAux, hwa, hc]
          rw [this]
          exact ih [] mod B (fun _ => rfl) hlast' hm hw hB
        · have : wordRunsAux cur (a :: ((a2 :: A'') ++ mod ++ B))
              = cur.reverse :: wordRunsAux [] ((a2 :: A'') ++ mod ++ B) := by
            simp [wordRunsAux, hwa, hc]
          rw [this]
          exact List.mem_cons_of_mem _
            (ih [] mod B (fun _ => rfl) hlast' hm hw hB)

theorem wordRunsAux_append_sep (y : List Char) (c : Char) (hc : isWordChar c = false)
    (x : List Char) :
    ∀ cur, wordRunsAux cur (x ++ c :: y) = wordRunsAux cur (x ++ [c]) ++ wordRunsAux [] y := by
  induction x with
  | nil =>
    intro cur
    by_cases hcur : cur = []
    · subst hcur
      simp [wordRunsAux, hc]
    · simp [wordRunsAux, hc, hcur]
  | cons d x' ih =>
    intro cur
    by_cases hd : isWordChar d = true
    · have h1 : wordRunsAux cur ((d :: x') ++ c :: y) = wordRunsAux (d :: cur) (x' ++ c :: y) := by
        simp [wordRunsAux, hd]
      have h2 : wordRunsAux cur ((d :: x') ++ [c]) = wordRunsAux (d :: cur) (x' ++ [c]) := by
        simp [wordRunsAux, hd]
      rw [h1, h2]
      exact ih (d :: cur)
    · by_cases hcur : cur = []
      · have h1 : wordRunsAux cur ((d :: x') ++ c :: y) = wordRunsAux [] (x' ++ c :: y) := by
          simp [wordRunsAux, hd, hcur]
        have h2 : wordRunsAux cur ((d :: x') ++ [c]) = wordRunsAux [] (x' ++ [c]) := by
          simp [wordRunsAux, hd, hcur]
        rw [h1, h2]
        exact ih []
      · have h1 : wordRunsAux cur ((d :: x') ++ c :: y)
            = cur.reverse :: wordRunsAux [] (x' ++ c :: y) := by
          simp [wordRunsAux, hd, hcur]
        have h2 : wordRunsAux cur ((d :: x') ++ [c])
            = cur.reverse :: wordRunsAux [] (x' ++ [c]) := by
          simp [wordRunsAux, hd, hcur]
        rw [h1, h2, ih [], List.cons_append]

theorem wordRunsAux_append_nonword (c : Char) (hc : isWordChar c = false) (x : List Char) :
    ∀ cur, wordRunsAux cur (x ++ [c]) = wordRunsAux cur x := by
  induction x with
  | nil =>
    intro cur
    by_cases hcur : cur = []
    · subst hcur
      simp [wordRunsAux, hc]
    · simp [wordRunsAux, hc, hcur]
  | cons d x' ih =>
    intro cur
    by_cases hd : isWordChar d = true
    · have h1 : wordRunsAux cur ((d :: x') ++ [c]) = wordRunsAux (d :: cur) (x' ++ [c]) := by
        simp [wordRunsAux, hd]
      have h2 : wordRunsAux cur (d :: x') = wordRunsAux (d :: cur) x' := by
        simp [wordRunsAux, hd]
      rw [h1, h2]
      exact ih (d :: cur)
    · by_cases hcur : cur = []
      · have h1 : wordRunsAux cur ((d :: x') ++ [c]) = wordRunsAux [] (x' ++ [c]) := by
          simp [wordRunsAux, hd, hcur]
        have h2 : wordRunsAux cur (d :: x') = wordRunsAux [] x' := by
          simp [wordRunsAux, hd, hcur]
        rw [h1, h2]
        exact ih []
      · have h1 : wordRunsAux cur ((d :: x') ++ [c])
            = cur.reverse :: wordRunsAux [] (x' ++ [c]) := by
          simp [wordRunsAux, hd, hcur]
        have h2 : wordRunsAux cur (d :: x') = cur.reverse :: wordRunsAux [] x' := by
          simp [wordRunsAux, hd, hcur]
        rw [h1, h2, ih []]

theorem pyTokens_join_cons (l : List Char) (ls : List (List Char)) (hls : ls ≠ []) :
    pyTokens (joinNl (l :: ls)) = pyTokens l ++ pyTokens (joinNl ls) := by
  rw [joinNl_cons_of_ne l ls hls]
  unfold pyTokens wordRuns
  rw [wordRunsAux_append_sep (joinNl ls) '\n' (by decide) l []]
  rw [wordRunsAux_append_nonword '\n' (by decide) l []]
  rw [List.filter_append]

theorem mem_pyTokens_joinNl (ls : List (List Char)) (l : List Char) (hl : l ∈ ls)
    (t : List Char) (ht : t ∈ pyTokens l) : t ∈ pyTokens (joinNl ls) := by
  induction ls with
  | nil => simp at hl
  | cons l0 ls' ih =>
    cases hls' : ls' with
    | nil =>
      rw [hls'] at hl
      rcases List.mem_singleton.mp hl with h
      subst h
      show t ∈ pyTokens (joinNl [l])
      simpa [joinNl] using ht
    | cons l1 ls'' =>
      rw [← hls']
      rw [pyTokens_join_cons l0 ls' (by rw [hls']; simp)]
      rcases List.mem_cons.mp hl with h | h
      · subst h
        exact List.mem_append_left _ ht
      · exact List.mem_append_right _ (ih h)

theorem ws_not_word (c : Char) (h : isPyWs c = true) : isWordChar c = false := by
  simp only [isPyWs, Bool.or_eq_true, decide_eq_true_eq] at h
  rcases h with ((((h | h) | h) | h) | h) | h <;> subst h <;> decide

theorem dropWhile_head_false (p : Char → Bool) (xs : List Char) :
    ∀ c r, xs.dropWhile p = c :: r → p c = false := by
  induction xs with
  | nil => intro c r h; simp [List.dropWhile] at h
  | cons d xs' ih =>
    intro c r h
    rw [List.dropWhile_cons] at h
    by_cases hd : p d = true
    · rw [if_pos hd] at h
      exact ih c r h
    · rw [if_neg hd] at h
      injection h with h1 _
      subst h1
      simpa using hd

theorem splitWsAux_run (s : List Char) :
    ∀ (cur : List Char) (f : List Char) (fs : List (List Char)), cur ≠ [] →
    splitWsAux cur s = f :: fs →
    ∃ g tail, f = cur.reverse ++ g ∧ s = g ++ tail ∧ (∀ c ∈ g, isPyWs c = false) ∧
      (tail = [] ∨ ∃ c t', tail = c :: t' ∧ isPyWs c = true) ∧ splitWs tail = fs := by
  induction s with
  | nil =>
    intro cur f fs hcur h
    have hstep : splitWsAux cur [] = [cur.reverse] := by simp [splitWsAux, hcur]
    rw [hstep] at h
    injection h with h1 h2
    refine ⟨[], [], by simp [h1], rfl, by simp, Or.inl rfl, ?_⟩
    rw [← h2]
    rfl
  | cons d s' ih =>
    intro cur f fs hcur h
    by_cases hd : isPyWs d = true
    · have hstep : splitWsAux cur (d :: s') = cur.reverse :: splitWsAux [] s' := by
        simp [splitWsAux, hd, hcur]
      rw [hstep] at h
      injection h with h1 h2
      refine ⟨[], d :: s', by simp [h1], rfl, by simp, Or.inr ⟨d, s', rfl, hd⟩, ?_⟩
      show splitWsAux [] (d :: s') = fs
      rw [← h2]
      simp [splitWsAux, hd]
    · have hstep : splitWsAux cur (d :: s') = splitWsAux (d :: cur) s' := by
        simp [splitWsAux, hd]
      rw [hstep] at h
      obtain ⟨g', tail, hf, hs, hg, htail, hrest⟩ := ih (d :: cur) f fs (List.cons_ne_nil _ _) h
      refine ⟨d :: g', tail, ?_, by rw [hs, List.cons_append], ?_, htail, hrest⟩
      · rw [hf, List.reverse_cons, List.append_assoc, List.singleton_append]
      · intro c hc
        rcases List.mem_cons.mp hc with h1 | h1
        · subst h1; simpa using hd
        · exact hg c h1

theorem splitWs_first (s : List Char) :
    ∀ (f : List Char) (fs : List (List Char)), splitWs s = f :: fs →
    ∃ w tail, s = w ++ f ++ tail ∧ (∀ c ∈ w, isPyWs c = true) ∧ f ≠ [] ∧
      (∀ c ∈ f, isPyWs c = false) ∧
      (tail = [] ∨ ∃ c t', tail = c :: t' ∧ isPyWs c = true) ∧
      splitWs tail = fs := by
  induction s with
  | nil => intro f fs h; simp [splitWs, splitWsAux] at h
  | cons d s' ih =>
    intro f fs h
    by_cases hd : isPyWs d = true
    · have hstep : splitWs (d :: s') = splitWs s' := by
        show splitWsAux [] (d :: s') = splitWsAux [] s'
        simp [splitWsAux, hd]
      rw [hstep] at h
      obtain ⟨w, tail, hs, hw, hf, hfc, htail, hrest⟩ := ih f fs h
      refine ⟨d :: w, tail, by simp [hs], ?_, hf, hfc, htail, hrest⟩
      intro c hc
      rcases List.mem_cons.mp hc with h1 | h1
      · subst h1; exact hd
      · exact hw c h1
    · have hstep : splitWs (d :: s') = splitWsAux [d] s' := by
        show splitWsAux [] (d :: s') = splitWsAux [d] s'
        simp [splitWsAux, hd]
      rw [hstep] at h
      obtain ⟨g, tail, hfeq, hs, hg, htail, hrest⟩ :=
        splitWsAux_run s' [d] f fs (List.cons_ne_nil _ _) h
      have hfd : f = d :: g := by simpa using hfeq
      refine ⟨[], tail, ?_, by simp, by simp [hfd], ?_, htail, hrest⟩
      · rw [List.nil_append, hfd, List.cons_append, hs]
      · intro c hc
        rw [hfd] at hc
        rcases List.mem_cons.mp hc with h1 | h1
        · subst h1; simpa using hd
        · exact hg c h1

theorem mod_of_mem_own_line (l : List Char) (h : identShapedB (mod_of l) = true) :
    mod_of l ∈ pyTokens l := by
  rcases hsp : splitWs l with _ | ⟨f0, _ | ⟨f1, fs1⟩⟩
  · rw [mod_of, hsp] at h
    simp [identShapedB] at h
  · rw [mod_of, hsp] at h
    simp [identShapedB] at h
  · have hmod : mod_of l = f1.takeWhile (fun c => c ≠ '.') := by
      rw [mod_of, hsp]
      rfl
    obtain ⟨w0, tail0, hl0, hw0, hf0ne, hf0c, htail0, hrest0⟩ := splitWs_first l f0 _ hsp
    obtain ⟨w1, tail1, hl1, hw1, hf1ne, hf1c, htail1, _⟩ := splitWs_first tail0 f1 fs1 hrest0
    have hw1ne : w1 ≠ [] := by
      intro hw1nil
      rcases htail0 with ht | ⟨c, t', hteq, hcw⟩
      · rw [ht] at hl1
        rcases List.append_eq_nil.mp (List.append_eq_nil.mp hl1.symm).1 with ⟨_, hf1nil⟩
        exact hf1ne hf1nil
      · rw [hteq] at hl1
        rw [hw1nil, List.nil_append] at hl1
        cases f1 with
        | nil => exact hf1ne rfl
        | cons fc fr =>
          rw [List.cons_append] at hl1
          injection hl1 with hc1 _
          rw [hc1] at hcw
          have := hf1c fc (List.mem_cons_self _ _)
          rw [hcw] at this
          exact absurd this (by simp)
    -- decompose f1 into the module name and the rest after the first dot
    have hf1split : f1.takeWhile (fun c => c ≠ '.') ++ f1.dropWhile (fun c => c ≠ '.') = f1 :=
      List.takeWhile_append_dropWhile _ _
    set modv := f1.takeWhile (fun c => c ≠ '.') with hmodv
    set rem := f1.dropWhile (fun c => c ≠ '.') with hrem
    rw [hmod] at h ⊢
    have hshape := h
    simp only [identShapedB, Bool.and_eq_true, List.all_eq_true] at hshape
    obtain ⟨hhead, hallw⟩ := hshape
    have hmodne : modv ≠ [] := by
      intro hnil
      rw [hnil] at hhead
      simp at hhead
    have hmodw : ∀ c ∈ modv, isWordChar c = true := by
      intro c hc
      exact hallw c hc
    -- the full decomposition of the line
    have hldecomp : l = ((w0 ++ f0) ++ w1) ++ modv ++ (rem ++ tail1) := by
      rw [hl0, hl1]
      rw [← hf1split]
      simp [List.append_assoc]
    -- the character before the module name is trailing whitespace of w1
    have hlastA : ∀ c, (((w0 ++ f0) ++ w1)).getLast? = some c → isWordChar c = false := by
      intro c hc
      rw [List.getLast?_append] at hc
      obtain ⟨cl, hcl⟩ := Option.isSome_iff_exists.mp (by
        rw [List.getLast?_isSome]
        exact hw1ne)
      rw [hcl] at hc
      simp only [Option.or_some] at hc
      injection hc with hc
      subst hc
      exact ws_not_word cl (hw1 cl (List.mem_of_getLast?_eq_some hcl))
    -- the character after the module name is a dot or a break
    have hBbreak : (rem ++ tail1) = [] ∨
        ∃ c B', (rem ++ tail1) = c :: B' ∧ isWordChar c = false := by
      cases hremc : rem with
      | nil =>
        rcases htail1 with ht | ⟨c, t', hteq, hcw⟩
        · left; simp [ht]
        · right
          exact ⟨c, t', by rw [hteq]; rfl, ws_not_word c hcw⟩
      | cons rc rr =>
        right
        have hdw : f1.dropWhile (fun c => decide (c ≠ '.')) = rc :: rr := by
          rw [← hrem]; exact hremc
        have hrc := dropWhile_head_false _ f1 rc rr hdw
        have hrcdot : rc = '.' := by simpa using hrc
        refine ⟨rc, rr ++ tail1, rfl, ?_⟩
        rw [hrcdot]
        decide
    have hmem : modv ∈ wordRuns l := by
      rw [hldecomp]
      exact mem_wordRunsAux_decomp ((w0 ++ f0) ++ w1) [] modv (rem ++ tail1)
        (fun habs => by
          exfalso
          rcases List.append_eq_nil.mp habs with ⟨_, hw1nil⟩
          exact hw1ne hw1nil)
        hlastA hmodne hmodw hBbreak
    exact List.mem_filter.mpr ⟨hmem, hhead⟩

/-! ## Optimizer fold lemmas -/

theorem opt_py_go_keeps_import (u als ls : List (List Char)) :
    ∀ line ∈ ls, line_is_import line = true →
    (mod_of line ∈ u ∨ mod_of line ∈ WLmods) →
    line ∈ (opt_py_go u als ls).1 := by
  induction ls with
  | nil => intro line h; simp at h
  | cons l0 rest ih =>
    intro line hline himp hcond
    rcases List.mem_cons.mp hline with h | h
    · subst h
      simp only [opt_py_go]
      rw [if_pos himp, if_pos hcond]
      exact List.mem_cons_self _ _
    · have hm := ih line h himp hcond
      simp only [opt_py_go]
      by_cases h1 : line_is_import l0 = true
      · by_cases h2 : mod_of l0 ∈ u ∨ mod_of l0 ∈ WLmods
        · rw [if_pos h1, if_pos h2]; exact List.mem_cons_of_mem _ hm
        · rw [if_pos h1, if_neg h2]; exact hm
      · rw [if_neg h1]
        by_cases h3 : stripWs l0 = "pass".data ∧ is_empty_block l0 als = false
        · rw [if_pos h3]; exact hm
        · rw [if_neg h3]; exact List.mem_cons_of_mem _ hm

theorem opt_py_go_mem_inv (u als ls : List (List Char)) :
    ∀ x ∈ (opt_py_go u als ls).1, x ∈ ls ∧
      (line_is_import x = true → mod_of x ∈ u ∨ mod_of x ∈ WLmods) ∧
      (line_is_import x = false → stripWs x ≠ "pass".data) := by
  induction ls with
  | nil => intro x hx; simp [opt_py_go] at hx
  | cons l0 rest ih =>
    intro x hx
    simp only [opt_py_go] at hx
    by_cases h1 : line_is_import l0 = true
    · by_cases h2 : mod_of l0 ∈ u ∨ mod_of l0 ∈ WLmods
      · rw [if_pos h1, if_pos h2] at hx
        rcases List.mem_cons.mp hx with h | h
        · subst h
          refine ⟨List.mem_cons_self _ _, fun _ => h2, fun hf => ?_⟩
          rw [hf] at h1
          exact absurd h1 (by simp)
        · obtain ⟨ha, hb, hc⟩ := ih x h
          exact ⟨List.mem_cons_of_mem _ ha, hb, hc⟩
      · rw [if_pos h1, if_neg h2] at hx
        obtain ⟨ha, hb, hc⟩ := ih x hx
        exact ⟨List.mem_cons_of_mem _ ha, hb, hc⟩
    · rw [if_neg h1] at hx
      by_cases h3 : stripWs l0 = "pass".data ∧ is_empty_block l0 als = false
      · rw [if_pos h3] at hx
        obtain ⟨ha, hb, hc⟩ := ih x hx
        exact ⟨List.mem_cons_of_mem _ ha, hb, hc⟩
      · rw [if_neg h3] at hx
        rcases List.mem_cons.mp hx with h | h
        · subst h
          refine ⟨List.mem_cons_self _ _, fun himp => ?_, fun _ hstrip => ?_⟩
          · rw [himp] at h1; exact absurd rfl h1
          · exact h3 ⟨hstrip, rfl⟩
        · obtain ⟨ha, hb, hc⟩ := ih x h
          exact ⟨List.mem_cons_of_mem _ ha, hb, hc⟩

theorem opt_py_go_all_keep (u als ls : List (List Char))
    (h : ∀ x ∈ ls, (line_is_import x = true → mod_of x ∈ u ∨ mod_of x ∈ WLmods) ∧
      (line_is_import x = false → stripWs x ≠ "pass".data)) :
    opt_py_go u als ls = (ls, []) := by
  induction ls with
  | nil => rfl
  | cons l0 rest ih =>
    have h0 := h l0 (List.mem_cons_self _ _)
    have ht : opt_py_go u als rest = (rest, []) :=
      ih (fun x hx => h x (List.mem_cons_of_mem _ hx))
    simp only [opt_py_go]
    rw [ht]
    by_cases h1 : line_is_import l0 = true
    · rw [if_pos h1, if_pos (h0.1 h1)]
    · rw [if_neg h1]
      rw [if_neg (fun hand => (h0.2 (by simpa using h1)) hand.1)]

theorem optimize_python_idem (code : List Char) :
    optimize_python (optimize_python code).1 = ((optimize_python code).1, []) := by
  by_cases hnil : (opt_py_go (pyTokens code) (splitNl code) (splitNl code)).1 = []
  · have h1 : (optimize_python code).1 = [] := by
      show joinNl (opt_py_go (pyTokens code) (splitNl code) (splitNl code)).1 = []
      rw [hnil]
      rfl
    rw [h1]
    rfl
  · have hcl : (optimize_python code).1
        = joinNl (opt_py_go (pyTokens code) (splitNl code) (splitNl code)).1 := rfl
    have hsub : ∀ x ∈ (opt_py_go (pyTokens code) (splitNl code) (splitNl code)).1,
        x ∈ splitNl code :=
      fun x hx => (opt_py_go_mem_inv _ _ _ x hx).1
    have hnonl : ∀ x ∈ (opt_py_go (pyTokens code) (splitNl code) (splitNl code)).1,
        '\n' ∉ x :=
      fun x hx => mem_splitNl_no_nl code x (hsub x hx)
    have hsplit : splitNl (joinNl (opt_py_go (pyTokens code) (splitNl code) (splitNl code)).1)
        = (opt_py_go (pyTokens code) (splitNl code) (splitNl code)).1 :=
      splitNl_joinNl _ hnil hnonl
    have hkeep : ∀ x ∈ (opt_py_go (pyTokens code) (splitNl code) (splitNl code)).1,
        (line_is_import x = true →
          mod_of x ∈ pyTokens (joinNl (opt_py_go (pyTokens code) (splitNl code)
            (splitNl code)).1) ∨ mod_of x ∈ WLmods) ∧
        (line_is_import x = false → stripWs x ≠ "pass".data) := by
      intro x hx
      obtain ⟨_, himps, hpass⟩ := opt_py_go_mem_inv _ _ _ x hx
      refine ⟨fun himp => ?_, hpass⟩
      rcases himps himp with hu | hwl
      · left
        have hshaped : identShapedB (mod_of x) = true :=
          mem_pyTokens_shaped code (mod_of x) hu
        exact mem_pyTokens_joinNl _ x hx (mod_of x) (mod_of_mem_own_line x hshaped)
      · right; exact hwl
    rw [hcl]
    have hform : optimize_python
        (joinNl (opt_py_go (pyTokens code) (splitNl code) (splitNl code)).1)
        = (joinNl (opt_py_go
            (pyTokens (joinNl (opt_py_go (pyTokens code) (splitNl code) (splitNl code)).1))
            (splitNl (joinNl (opt_py_go (pyTokens code) (splitNl code) (splitNl code)).1))
            (splitNl (joinNl (opt_py_go (pyTokens code) (splitNl code) (splitNl code)).1))).1,
          (opt_py_go
            (pyTokens (joinNl (opt_py_go (pyTokens code) (splitNl code) (splitNl code)).1))
            (splitNl (joinNl (opt_py_go (pyTokens code) (splitNl code) (splitNl code)).1))
            (splitNl (joinNl (opt_py_go (pyTokens code) (splitNl code) (splitNl code)).1))).2)
        := rfl
    rw [hform, hsplit]
    rw [opt_py_go_all_keep _ _ _ hkeep]

/-! ## Claim C7: used imports are never pruned -/

/-- Claim C7 (confirmed): unused-import pruning never removes an import
statement whose bound module name (`line.split()[1].split('.')[0]`) occurs
in the text as an identifier token — in particular when it occurs anywhere
else than in the import statement itself — because the keep test is
membership in the identifier-token set of the whole text (plus the
`{"os","sys","json","math"}` whitelist).  The kept line reappears in the
cleaned text.  In particular "import os\nprint(os.getcwd())" is returned
unchanged with no improvement messages. -/
theorem optimize_python_keeps_used_import :
    (∀ code line, line ∈ splitNl code → line_is_import line = true →
        mod_of line ∈ pyTokens code →
        line ∈ splitNl (optimize_python code).1) ∧
    optimize_python ("import os\nprint(os.getcwd())".data)
      = ("import os\nprint(os.getcwd())".data, []) := by
  constructor
  · intro code line hline himp hmod
    have hkept : line ∈ (opt_py_go (pyTokens code) (splitNl code) (splitNl code)).1 :=
      opt_py_go_keeps_import _ _ _ line hline himp (Or.inl hmod)
    have hs : splitNl (optimize_python code).1
        = (opt_py_go (pyTokens code) (splitNl code) (splitNl code)).1 := by
      have hcl : (optimize_python code).1
          = joinNl (opt_py_go (pyTokens code) (splitNl code) (splitNl code)).1 := rfl
      rw [hcl]
      exact splitNl_joinNl _ (List.ne_nil_of_mem hkept)
        (fun x hx => mem_splitNl_no_nl code x ((opt_py_go_mem_inv _ _ _ x hx).1))
    rw [hs]
    exact hkept
  · rfl

theorem optimize_python_keeps_used_import_witness :
    ("import os".data) ∈ splitNl (optimize_python ("import os\nos".data)).1 :=
  optimize_python_keeps_used_import.1 ("import os\nos".data) ("import os".data)
    (by decide) (by decide) (by decide)

/-! ## Idempotence of the javascript pass (`re.sub(r'var ', 'let ', code)`) -/

theorem matchSeq_lit (prev : Option Char) (l s : List Char) :
    matchSeq prev [Atom.lit l] s
      = if s.take l.length = l then some ([], s.drop l.length) else none := by
  simp only [matchSeq]

theorem matchSeq_var (prev : Option Char) (s : List Char) :
    matchSeq prev varPat s
      = if s.take 4 = "var ".data then some ([], s.drop 4) else none := by
  rw [show varPat = [Atom.lit ("var ".data)] from rfl, matchSeq_lit]
  rfl

theorem scanSub_fuel_eq (pat : List Atom) (repl : List ReplItem) :
    ∀ (fuel₁ fuel₂ : Nat) (s : List Char) (prev : Option Char),
    s.length ≤ fuel₁ → s.length ≤ fuel₂ →
    scanSub pat repl fuel₁ prev s = scanSub pat repl fuel₂ prev s := by
  intro fuel₁
  induction fuel₁ with
  | zero =>
    intro fuel₂ s prev h1 _
    have hs : s = [] := List.eq_nil_of_length_eq_zero (Nat.le_zero.mp h1)
    subst hs
    cases fuel₂ <;> rfl
  | succ f ih =>
    intro fuel₂ s prev h1 h2
    cases s with
    | nil => cases fuel₂ <;> rfl
    | cons c rest =>
      cases fuel₂ with
      | zero => simp at h2
      | succ g =>
        simp only [List.length_cons] at h1 h2
        cases hm : matchSeq prev pat (c :: rest) with
        | none =>
          simp only [scanSub, hm]
          rw [ih g rest (some c) (by omega) (by omega)]
        | some v =>
          obtain ⟨gs, r⟩ := v
          simp only [scanSub, hm]
          by_cases hlt : r.length < (c :: rest).length
          · rw [if_pos hlt, if_pos hlt]
            simp only [List.length_cons] at hlt
            rw [ih g r _ (by omega) (by omega)]
          · rw [if_neg hlt, if_neg hlt]
            rw [ih g rest (some c) (by omega) (by omega)]

theorem scanSub_var_prev :
    ∀ (fuel : Nat) (s : List Char) (p1 p2 : Option Char),
    scanSub varPat varRepl fuel p1 s = scanSub varPat varRepl fuel p2 s := by
  intro fuel
  induction fuel with
  | zero => intro s p1 p2; rfl
  | succ f ih =>
    intro s p1 p2
    cases s with
    | nil => rfl
    | cons c rest =>
      simp only [scanSub]
      rw [show matchSeq p1 varPat (c :: rest) = matchSeq p2 varPat (c :: rest) from by
        rw [matchSeq_var, matchSeq_var]]
      cases hm : matchSeq p2 varPat (c :: rest) with
      | none => simp only [hm]
      | some v =>
        obtain ⟨gs, r⟩ := v
        simp only [hm]
        by_cases hlt : r.length < (c :: rest).length
        · rw [if_pos hlt, if_pos hlt,
            ih r (prevAfter (c :: rest) r p1) (prevAfter (c :: rest) r p2)]
        · rw [if_neg hlt, if_neg hlt]

theorem subAll_var_step (t : List Char) :
    subAll varPat varRepl ('v' :: 'a' :: 'r' :: ' ' :: t)
      = 'l' :: 'e' :: 't' :: ' ' :: subAll varPat varRepl t := by
  have hm : matchSeq none varPat ('v' :: 'a' :: 'r' :: ' ' :: t) = some ([], t) := by
    rw [matchSeq_var]
    rfl
  show scanSub varPat varRepl ('v' :: 'a' :: 'r' :: ' ' :: t).length none
      ('v' :: 'a' :: 'r' :: ' ' :: t) = _
  simp only [List.length_cons]
  simp only [scanSub, hm]
  rw [if_pos (by simp only [List.length_cons]; omega)]
  have happ : applyRepl varRepl [] = 'l' :: 'e' :: 't' :: ' ' :: [] := rfl
  rw [happ]
  rw [scanSub_var_prev _ t _ none]
  rw [scanSub_fuel_eq varPat varRepl _ t.length t none (by omega) (by omega)]
  rfl

theorem subAll_var_nomatch (c : Char) (t : List Char)
    (h : ¬ (("var ".data) <+: (c :: t))) :
    subAll varPat varRepl (c :: t) = c :: subAll varPat varRepl t := by
  have hm : matchSeq none varPat (c :: t) = none := by
    rw [matchSeq_var]
    refine if_neg (fun heq => h ?_)
    exact List.prefix_iff_eq_take.mpr heq.symm
  show scanSub varPat varRepl (c :: t).length none (c :: t) = _
  simp only [List.length_cons]
  simp only [scanSub, hm]
  rw [scanSub_var_prev _ t _ none]
  rfl

theorem not_var_prefix_of_head (c : Char) (hc : c ≠ 'v') (x : List Char) :
    ¬ (("var ".data) <+: (c :: x)) := by
  intro h
  obtain ⟨s, hs⟩ := h
  rw [show ("var ".data) ++ s = 'v' :: ("ar ".data ++ s) from rfl] at hs
  injection hs with h1 _
  exact hc h1.symm

theorem sp_prefix_transfer (t : List Char)
    (h : (" ".data) <+: subAll varPat varRepl t) : (" ".data) <+: t := by
  by_cases hp : ("var ".data) <+: t
  · exfalso
    obtain ⟨s, hs⟩ := hp
    rw [← hs, show ("var ".data) ++ s = 'v' :: 'a' :: 'r' :: ' ' :: s from rfl,
      subAll_var_step] at h
    obtain ⟨s2, hs2⟩ := h
    rw [show (" ".data) ++ s2 = ' ' :: s2 from rfl] at hs2
    injection hs2 with h1 _
    simp at h1
  · cases t with
    | nil =>
      obtain ⟨s, hs⟩ := h
      simp [subAll, scanSub] at hs
    | cons c t' =>
      rw [subAll_var_nomatch c t' hp] at h
      obtain ⟨s, hs⟩ := h
      rw [show (" ".data) ++ s = ' ' :: s from rfl] at hs
      injection hs with h1 _
      refine ⟨t', ?_⟩
      rw [show (" ".data) ++ t' = ' ' :: t' from rfl, h1]

theorem r_prefix_transfer (t : List Char)
    (h : ("r ".data) <+: subAll varPat varRepl t) : ("r ".data) <+: t := by
  by_cases hp : ("var ".data) <+: t
  · exfalso
    obtain ⟨s, hs⟩ := hp
    rw [← hs, show ("var ".data) ++ s = 'v' :: 'a' :: 'r' :: ' ' :: s from rfl,
      subAll_var_step] at h
    obtain ⟨s2, hs2⟩ := h
    rw [show ("r ".data) ++ s2 = 'r' :: ' ' :: s2 from rfl] at hs2
    injection hs2 with h1 _
    simp at h1
  · cases t with
    | nil =>
      obtain ⟨s, hs⟩ := h
      simp [subAll, scanSub] at hs
    | cons c t' =>
      rw [subAll_var_nomatch c t' hp] at h
      obtain ⟨s, hs⟩ := h
      rw [show ("r ".data) ++ s = 'r' :: ' ' :: s from rfl] at hs
      injection hs with h1 h2
      have hsp : (" ".data) <+: subAll varPat varRepl t' := by
        refine ⟨s, ?_⟩
        rw [show (" ".data) ++ s = ' ' :: s from rfl, h2]
      obtain ⟨s3, hs3⟩ := sp_prefix_transfer t' hsp
      rw [show (" ".data) ++ s3 = ' ' :: s3 from rfl] at hs3
      refine ⟨s3, ?_⟩
      rw [show ("r ".data) ++ s3 = 'r' :: ' ' :: s3 from rfl, hs3, h1]

theorem ar_prefix_transfer (t : List Char)
    (h : ("ar ".data) <+: subAll varPat varRepl t) : ("ar ".data) <+: t := by
  by_cases hp : ("var ".data) <+: t
  · exfalso
    obtain ⟨s, hs⟩ := hp
    rw [← hs, show ("var ".data) ++ s = 'v' :: 'a' :: 'r' :: ' ' :: s from rfl,
      subAll_var_step] at h
    obtain ⟨s2, hs2⟩ := h
    rw [show ("ar ".data) ++ s2 = 'a' :: 'r' :: ' ' :: s2 from rfl] at hs2
    injection hs2 with h1 _
    simp at h1
  · cases t with
    | nil =>
      obtain ⟨s, hs⟩ := h
      simp [subAll, scanSub] at hs
    | cons c t' =>
      rw [subAll_var_nomatch c t' hp] at h
      obtain ⟨s, hs⟩ := h
      rw [show ("ar ".data) ++ s = 'a' :: 'r' :: ' ' :: s from rfl] at hs
      injection hs with h1 h2
      have hr : ("r ".data) <+: subAll varPat varRepl t' := by
        refine ⟨s, ?_⟩
        rw [show ("r ".data) ++ s = 'r' :: ' ' :: s from rfl, h2]
      obtain ⟨s3, hs3⟩ := r_prefix_transfer t' hr
      rw [show ("r ".data) ++ s3 = 'r' :: ' ' :: s3 from rfl] at hs3
      refine ⟨s3, ?_⟩
      rw [show ("ar ".data) ++ s3 = 'a' :: 'r' :: ' ' :: s3 from rfl, hs3, h1]

theorem subAll_var_idem (code : List Char) :
    subAll varPat varRepl (subAll varPat varRepl code) = subAll varPat varRepl code := by
  suffices h : ∀ (n : Nat) (u : List Char), u.length ≤ n →
      subAll varPat varRepl (subAll varPat varRepl u) = subAll varPat varRepl u from
    h code.length code (Nat.le_refl _)
  intro n
  induction n with
  | zero =>
    intro u hu
    have hs : u = [] := List.eq_nil_of_length_eq_zero (Nat.le_zero.mp hu)
    subst hs
    rfl
  | succ n ih =>
    intro u hu
    by_cases hp : ("var ".data) <+: u
    · obtain ⟨t, ht⟩ := hp
      rw [← ht, show ("var ".data) ++ t = 'v' :: 'a' :: 'r' :: ' ' :: t from rfl]
      rw [subAll_var_step]
      have hlen : t.length ≤ n := by
        rw [← ht] at hu
        simp at hu
        omega
      rw [subAll_var_nomatch 'l' _ (not_var_prefix_of_head 'l' (by decide) _)]
      rw [subAll_var_nomatch 'e' _ (not_var_prefix_of_head 'e' (by decide) _)]
      rw [subAll_var_nomatch 't' _ (not_var_prefix_of_head 't' (by decide) _)]
      rw [subAll_var_nomatch ' ' _ (not_var_prefix_of_head ' ' (by decide) _)]
      rw [ih t hlen]
    · cases u with
      | nil => rfl
      | cons c t =>
        have hlen : t.length ≤ n := by
          simp at hu
          omega
        rw [subAll_var_nomatch c t hp]
        by_cases hc : c = 'v'
        · subst hc
          have hnp : ¬ (("var ".data) <+: ('v' :: subAll varPat varRepl t)) := by
            intro hpre
            obtain ⟨s, hs⟩ := hpre
            rw [show ("var ".data) ++ s = 'v' :: ('a' :: 'r' :: ' ' :: s) from rfl] at hs
            have har : ("ar ".data) <+: subAll varPat varRepl t := by
              refine ⟨s, ?_⟩
              have hinj : 'a' :: 'r' :: ' ' :: s = subAll varPat varRepl t := by
                injection hs
              rw [show ("ar ".data) ++ s = 'a' :: 'r' :: ' ' :: s from rfl, hinj]
            obtain ⟨s3, hs3⟩ := ar_prefix_transfer t har
            apply hp
            refine ⟨s3, ?_⟩
            rw [show ("var ".data) ++ s3 = 'v' :: ("ar ".data ++ s3) from rfl, hs3]
          rw [subAll_var_nomatch 'v' _ hnp, ih t hlen]
        · rw [subAll_var_nomatch c _ (not_var_prefix_of_head c hc _), ih t hlen]

/-! ## Claim C3: idempotence of `optimize` -/

/-- Claim C3 counterexample: `optimize` is not idempotent as claimed for the
change list: for language "javascript" the second run still reports
"Replaced var with let" (optimize_js appends the message unconditionally,
optimizer.py line 56), so the second run's change list is not empty. -/
theorem optimize_idem_cex :
    (optimize (optimize ("a".data) ("javascript".data)).optimized_code
        ("javascript".data)).improvements = [ "Replaced var with let".data ] ∧
    [ "Replaced var with let".data ] ≠ ([] : List (List Char)) :=
  ⟨rfl, by decide⟩

/-- Claim C3 (amended): `optimize` is idempotent on the optimized text for
every input and language — `optimize(optimize(x)).optimized_code =
optimize(x).optimized_code` — and the second run reports an empty change
list for every language except "javascript", where the second run always
reports exactly ["Replaced var with let"] even though the text no longer
changes. -/
theorem optimize_idem_amended (code lang : List Char) :
    (optimize (optimize code lang).optimized_code lang).optimized_code
      = (optimize code lang).optimized_code ∧
    (toLowerL lang ≠ "javascript".data →
      (optimize (optimize code lang).optimized_code lang).improvements = []) ∧
    (toLowerL lang = "javascript".data →
      (optimize (optimize code lang).optimized_code lang).improvements
        = [ "Replaced var with let".data ]) := by
  by_cases hpy : toLowerL lang = "python".data
  · have hoc : ∀ c : List Char, (optimize c lang).optimized_code = (optimize_python c).1 := by
      intro c
      simp only [optimize]
      rw [if_pos hpy]
    have him : ∀ c : List Char, (optimize c lang).improvements = (optimize_python c).2 := by
      intro c
      simp only [optimize]
      rw [if_pos hpy]
    refine ⟨?_, fun _ => ?_, fun hjs => absurd (hpy.symm.trans hjs) (by decide)⟩
    · rw [hoc, hoc, optimize_python_idem code]
    · rw [him, hoc, optimize_python_idem code]
  · by_cases hjs : toLowerL lang = "javascript".data
    · have hoc : ∀ c : List Char, (optimize c lang).optimized_code
          = subAll varPat varRepl c := by
        intro c
        simp only [optimize]
        rw [if_neg hpy, if_pos hjs]
        rfl
      have him : ∀ c : List Char,
          (optimize c lang).improvements = [ "Replaced var with let".data ] := by
        intro c
        simp only [optimize]
        rw [if_neg hpy, if_pos hjs]
        rfl
      refine ⟨?_, fun hne => absurd hjs hne, fun _ => him _⟩
      rw [hoc, hoc, subAll_var_idem]
    · have hoc : ∀ c : List Char, (optimize c lang).optimized_code = c := by
        intro c
        simp only [optimize]
        rw [if_neg hpy, if_neg hjs]
      have him : ∀ c : List Char, (optimize c lang).improvements = [] := by
        intro c
        simp only [optimize]
        rw [if_neg hpy, if_neg hjs]
      exact ⟨by rw [hoc, hoc], fun _ => him _, fun hj => absurd hj hjs⟩

theorem optimize_idem_amended_witness :
    (optimize (optimize ("var x = 1;".data) ("javascript".data)).optimized_code
        ("javascript".data)).improvements = [ "Replaced var with let".data ] ∧
    (optimize (optimize ("import os\nx = 1".data) ("python".data)).optimized_code
        ("python".data)).improvements = [] :=
  ⟨(optimize_idem_amended ("var x = 1;".data) ("javascript".data)).2.2 (by decide),
   (optimize_idem_amended ("import os\nx = 1".data) ("python".data)).2.1 (by decide)⟩
